import Mathlib

/-!
Verification of the resumable chunked-pipeline orchestrator
(`batch_clamp3.py`) and the merge step (`merge_outputs.py`).

The Python scripts are shallowly embedded: the pure partition function
`chunkify` becomes a Lean function on lists, and the effectful `main`
bodies become state-passing functions over an explicit file-system state,
recording file transfers, worker invocations and diagnostics as events.
-/

set_option autoImplicit false

namespace Clamp3

universe u

variable {α : Type u}

/-- `math.ceil(len(files) / n)` as computed in `chunkify` of
`batch_clamp3.py`, for a positive chunk count `n`. -/
def kOf (L n : Nat) : Nat := (L + n - 1) / n

/-- `chunkify(files, n)` from `batch_clamp3.py`: with
`k = math.ceil(len(files)/n)`, yield the slice `files[i*k : (i+1)*k]`
for each `i in range(n)`. -/
def chunkify (files : List α) (n : Nat) : List (List α) :=
  (List.range n).map fun i =>
    (files.drop (i * kOf files.length n)).take (kOf files.length n)

/-- The group the partitioner assigns to chunk `i`. -/
def groupOf (files : List α) (n i : Nat) : List α :=
  (chunkify files n).getD i []

theorem length_chunkify (files : List α) (n : Nat) :
    (chunkify files n).length = n := by
  simp [chunkify]

theorem groupOf_eq_slice (files : List α) (n i : Nat) (hi : i < n) :
    groupOf files n i
      = (files.drop (i * kOf files.length n)).take (kOf files.length n) := by
  simp [groupOf, chunkify, List.getD, hi]

/-- Concatenating the first `n` consecutive slices of width `k` recovers
the first `n*k` elements. -/
theorem flatten_slices (l : List α) (k : Nat) :
    ∀ n : Nat, (((List.range n).map fun i => (l.drop (i * k)).take k).flatten
      = l.take (n * k)) := by
  intro n
  induction n with
  | zero => simp
  | succ m ih =>
      rw [List.range_succ, List.map_append, List.flatten_append, ih]
      simp only [List.map_cons, List.map_nil, List.flatten_cons, List.flatten_nil,
        List.append_nil]
      rw [← List.take_add]
      congr 1
      ring

theorem le_mul_kOf (L n : Nat) (h : 1 ≤ n) : L ≤ n * kOf L n := by
  have hdm := Nat.div_add_mod (L + n - 1) n
  have hlt : (L + n - 1) % n < n := Nat.mod_lt _ (by omega)
  unfold kOf
  omega

theorem flatten_chunkify (files : List α) (n : Nat) (h : 1 ≤ n) :
    (chunkify files n).flatten = files := by
  unfold chunkify
  rw [flatten_slices]
  exact List.take_of_length_le (le_mul_kOf _ _ h)

/-- C2: for every corpus and every chunk count `N ≥ 1`, the partitioner
produces exactly `N` groups, each group is the contiguous slice of the
corpus between offsets `i*k` and `(i+1)*k` (`k = ceil(L/N)`), and the
concatenation of the groups in index order is exactly the corpus (hence
the groups are ordered, pairwise non-overlapping, and cover it). -/
theorem partitioner_exact_cover (c : List α) (n : Nat) (h : 1 ≤ n) :
    (chunkify c n).length = n ∧
    (∀ i, i < n →
      groupOf c n i = (c.drop (i * kOf c.length n)).take (kOf c.length n)) ∧
    (chunkify c n).flatten = c :=
  ⟨length_chunkify c n, fun i hi => groupOf_eq_slice c n i hi,
    flatten_chunkify c n h⟩

theorem partitioner_exact_cover_witness :
    1 ≤ 2 ∧
    ((chunkify [10, 20, 30] 2).length = 2 ∧
      (∀ i, i < 2 →
        groupOf [10, 20, 30] 2 i
          = (([10, 20, 30] : List Nat).drop (i * kOf 3 2)).take (kOf 3 2)) ∧
      (chunkify [10, 20, 30] 2).flatten = [10, 20, 30]) :=
  ⟨by decide, partitioner_exact_cover [10, 20, 30] 2 (by decide)⟩

/-- C3 fails on the code: for a corpus of 25 files and `N = 10`, group 8 —
which is not the final group — has size 1, not `ceil(25/10) = 3`. -/
theorem nonfinal_group_size_counterexample :
    (8 : Nat) ≠ 10 - 1 ∧ kOf 25 10 = 3 ∧
    (groupOf (List.range 25) 10 8).length = 1 := by
  decide

/-- C3 amended: with `k = ceil(L/N)`, group `i` has size
`min k (L - i*k)` (truncated subtraction): full groups of size `k` come
first, then at most one shorter group holding the remainder, and any
trailing groups are empty — so more than just the final group may differ
from `ceil(L/N)`. -/
theorem group_size_formula (c : List α) (n i : Nat) (hi : i < n) :
    (groupOf c n i).length
      = min (kOf c.length n) (c.length - i * kOf c.length n) := by
  rw [groupOf_eq_slice c n i hi]
  simp [List.length_take, List.length_drop]

theorem group_size_formula_witness :
    8 < 10 ∧
    (groupOf (List.range 25) 10 8).length
      = min (kOf (List.range 25).length 10)
          ((List.range 25).length - 8 * kOf (List.range 25).length 10) :=
  ⟨by decide, group_size_formula (List.range 25) 10 8 (by decide)⟩

/-- C4 fails on the code: for 25 files and `N = 10` the group sizes are
not `[3,3,3,3,3,3,3,1,1,1]`. -/
theorem sizes_25_10_counterexample :
    (chunkify (List.range 25) 10).map List.length
      ≠ [3, 3, 3, 3, 3, 3, 3, 1, 1, 1] := by
  decide

/-- C4 amended: for a corpus of exactly 25 files and `N = 10`, the
partitioner produces groups of sizes `[3,3,3,3,3,3,3,3,1,0]` in index
order (eight full groups of `ceil(25/10) = 3`, one group with the single
remaining file, and one empty group). -/
theorem sizes_25_10_actual :
    (chunkify (List.range 25) 10).map List.length
      = [3, 3, 3, 3, 3, 3, 3, 3, 1, 0] := by
  decide

/-- A source audio file: directory part plus basename (`f.name` in
Python). Two distinct paths may share a basename. -/
structure MFile where
  parent : String
  name : String
deriving DecidableEq

/-- Observable file-system effects and process spawns of one run of
`main` in `batch_clamp3.py`. -/
inductive Ev where
  | mkWorkDir : Ev
  | mkInputDir : Nat → Ev
  | transfer : Nat → MFile → Ev
  | mkOutRoot : Ev
  | skipChunk : Nat → Ev
  | invoke : Nat → Ev
deriving DecidableEq

/-- How `main` of `batch_clamp3.py` terminates: normally, via
`sys.exit("No mp3 files found …")`, via the uncaught `ZeroDivisionError`
from `math.ceil(len(files)/0)`, or via `sys.exit(1)` after the embedding
worker failed on a chunk (the failed chunk index is reported). -/
inductive ExitRes where
  | ok : ExitRes
  | noFiles : ExitRes
  | zeroDiv : ExitRes
  | workerFailed : Nat → ExitRes
deriving DecidableEq

/-- The file-system state the orchestrator reads and writes: existence of
the work dir and output root, the sorted mp3 listing of `src_dir`, the
existing `work_dir/chunk_<i>` directories with the file names they
contain, and the existing `out_root/chunk_<i>` directories. -/
structure St where
  workDirExists : Bool
  outRootExists : Bool
  src : List MFile
  inDirs : List (Nat × List String)
  outDirs : List Nat
deriving DecidableEq

def dirLookup (i : Nat) : List (Nat × List String) → Option (List String)
  | [] => none
  | e :: rest => if e.1 = i then some e.2 else dirLookup i rest

/-- Writing file `nm` into a directory listing: `shutil.copy2`/`move`
overwrite an existing file of the same name, so the name appears once. -/
def addName (names : List String) (nm : String) : List String :=
  if nm ∈ names then names else names ++ [nm]

/-- The names a chunk directory holds after transferring `g` in order. -/
def namesOf (g : List MFile) : List String :=
  g.foldl (fun acc f => addName acc f.name) []

def updateDir (i : Nat) (nm : String) :
    List (Nat × List String) → List (Nat × List String)
  | [] => []
  | e :: rest =>
    if e.1 = i then (e.1, addName e.2 nm) :: rest else e :: updateDir i nm rest

def removeFile (f : MFile) : List MFile → List MFile
  | [] => []
  | g :: rest => if g = f then rest else g :: removeFile f rest

/-- One `shutil.move`/`shutil.copy2` of `f` into chunk `i`'s input dir:
move deletes the source path; both write `f.name` into the chunk dir. -/
def transferFile (mv : Bool) (i : Nat) (s : St) (f : MFile) : St :=
  { s with
    src := if mv then removeFile f s.src else s.src
    inDirs := updateDir i f.name s.inDirs }

/-- The body of the materialization loop for one chunk (`batch_clamp3.py`
lines 62-71): if `work_dir/chunk_<i>` exists, do nothing; otherwise
create it and transfer each assigned file in order. -/
def materializeChunk (mv : Bool) (i : Nat) (g : List MFile) (s : St) :
    St × List Ev :=
  if (dirLookup i s.inDirs).isSome then (s, [])
  else
    (g.foldl (transferFile mv i) { s with inDirs := (i, []) :: s.inDirs },
     Ev.mkInputDir i :: g.map (Ev.transfer i))

/-- `for idx, group in enumerate(chunkify(mp3s, num_chunks))`, starting
at index `idx`. -/
def materializeAll (mv : Bool) :
    Nat → List (List MFile) → St → List Ev → St × List Ev
  | _, [], s, evs => (s, evs)
  | idx, g :: rest, s, evs =>
    let p := materializeChunk mv idx g s
    materializeAll mv (idx + 1) rest p.1 (evs ++ p.2)

/-- `for idx in range(num_chunks)` (`batch_clamp3.py` lines 75-98),
starting at `idx` with `m` iterations left: skip a chunk whose output dir
exists, otherwise invoke the worker; `wOk i` tells whether the worker
exits 0 on chunk `i`, in which case it has produced `out_root/chunk_<i>`;
on failure `wPartial i` tells whether the crashed worker left a partial
output dir behind, and the whole run stops with `sys.exit(1)`. -/
def runWorkers (wOk wPartial : Nat → Bool) :
    Nat → Nat → St → List Ev → ExitRes × St × List Ev
  | _, 0, s, evs => (ExitRes.ok, s, evs)
  | idx, m + 1, s, evs =>
    if idx ∈ s.outDirs then
      runWorkers wOk wPartial (idx + 1) m s (evs ++ [Ev.skipChunk idx])
    else if wOk idx then
      runWorkers wOk wPartial (idx + 1) m
        { s with outDirs := s.outDirs ++ [idx] } (evs ++ [Ev.invoke idx])
    else
      (ExitRes.workerFailed idx,
       if wPartial idx then { s with outDirs := s.outDirs ++ [idx] } else s,
       evs ++ [Ev.invoke idx])

/-- `chunkify` as the generator consumed by `main`, with the raw integer
`--chunks` value: computing `math.ceil(len(files)/n)` raises
`ZeroDivisionError` when `n = 0`, and when `n < 0` the generator's
`range(n)` is empty so no group is ever yielded. -/
def chunkifyPy (files : List MFile) (n : Int) :
    Except Unit (List (List MFile)) :=
  if n = 0 then Except.error ()
  else if n < 0 then Except.ok []
  else Except.ok (chunkify files n.toNat)

structure RunOut where
  res : ExitRes
  events : List Ev
  st : St
deriving DecidableEq

/-- `main` of `batch_clamp3.py`: discover the (sorted) mp3s, bail out if
there are none, create the work dir, materialize every chunk input dir
that does not yet exist, create the output root, then run the worker on
every chunk whose output dir does not yet exist, stopping the whole run
at the first worker failure. -/
def runMain (n : Int) (mv : Bool) (wOk wPartial : Nat → Bool) (s : St) :
    RunOut :=
  if s.src = [] then ⟨ExitRes.noFiles, [], s⟩
  else
    let s1 : St := { s with workDirExists := true }
    match chunkifyPy s.src n with
    | Except.error _ => ⟨ExitRes.zeroDiv, [Ev.mkWorkDir], s1⟩
    | Except.ok groups =>
      let p := materializeAll mv 0 groups s1 [Ev.mkWorkDir]
      let s3 : St := { p.1 with outRootExists := true }
      let q := runWorkers wOk wPartial 0 n.toNat s3 (p.2 ++ [Ev.mkOutRoot])
      ⟨q.1, q.2.2, q.2.1⟩

/-- The state before a first run: no work area, no output area, the
corpus sitting in the source directory. -/
def freshSt (corpus : List MFile) : St :=
  ⟨false, false, corpus, [], []⟩

/-- An external worker that always succeeds. -/
def wTrue : Nat → Bool := fun _ => true

/-- A crashed worker never leaves a partial output dir behind. -/
def wFalse : Nat → Bool := fun _ => false

/-- The indices `idx, idx+1, …, idx+m-1`: Python's `range(idx, idx+m)`. -/
def seqFrom : Nat → Nat → List Nat
  | _, 0 => []
  | idx, m + 1 => idx :: seqFrom (idx + 1) m

/-- Number of occurrences of an event in a trace. -/
def countIn (e : Ev) : List Ev → Nat
  | [] => 0
  | x :: rest => (if x = e then 1 else 0) + countIn e rest

theorem mem_seqFrom : ∀ (m idx j : Nat),
    j ∈ seqFrom idx m ↔ (idx ≤ j ∧ j < idx + m) := by
  intro m
  induction m with
  | zero =>
      intro idx j
      simp [seqFrom]
  | succ k ih =>
      intro idx j
      simp [seqFrom, ih (idx + 1) j]
      omega

theorem countIn_append (e : Ev) :
    ∀ a b : List Ev, countIn e (a ++ b) = countIn e a + countIn e b := by
  intro a b
  induction a with
  | nil => simp [countIn]
  | cons x t ih => simp [countIn, ih]; omega

theorem countIn_eq_zero (e : Ev) :
    ∀ l : List Ev, e ∉ l → countIn e l = 0 := by
  intro l
  induction l with
  | nil => intro _; rfl
  | cons x t ih =>
      intro h
      have hx : x ≠ e := fun hc => h (hc ▸ List.mem_cons_self x t)
      have ht : e ∉ t := fun hc => h (List.mem_cons_of_mem x hc)
      simp [countIn, hx, ih ht]

theorem countIn_invoke_seqFrom : ∀ (m idx i : Nat),
    countIn (Ev.invoke i) ((seqFrom idx m).map Ev.invoke)
      = if idx ≤ i ∧ i < idx + m then 1 else 0 := by
  intro m
  induction m with
  | zero =>
      intro idx i
      simp only [seqFrom, List.map_nil, countIn]
      split_ifs <;> omega
  | succ k ih =>
      intro idx i
      simp only [seqFrom, List.map_cons, countIn, ih (idx + 1) i, Ev.invoke.injEq]
      split_ifs <;> omega

theorem dirLookup_updateDir_self (i : Nat) (nm : String) :
    ∀ d : List (Nat × List String),
    dirLookup i (updateDir i nm d)
      = (dirLookup i d).map (fun names => addName names nm) := by
  intro d
  induction d with
  | nil => simp [updateDir, dirLookup]
  | cons e rest ih =>
      by_cases he : e.1 = i
      · simp [updateDir, dirLookup, he]
      · simp [updateDir, dirLookup, he, ih]

theorem dirLookup_updateDir_ne (i j : Nat) (nm : String) (hj : j ≠ i) :
    ∀ d, dirLookup j (updateDir i nm d) = dirLookup j d := by
  intro d
  induction d with
  | nil => simp [updateDir, dirLookup]
  | cons e rest ih =>
      by_cases he : e.1 = i
      · have hij : ¬(i = j) := fun h => hj h.symm
        simp [updateDir, dirLookup, he, hij]
      · by_cases hejj : e.1 = j
        · simp [updateDir, dirLookup, he, hejj, hj]
        · simp [updateDir, dirLookup, he, hejj, hj, ih]

theorem foldl_transfer_flags (mv : Bool) (i : Nat) :
    ∀ (g : List MFile) (s : St),
    (g.foldl (transferFile mv i) s).workDirExists = s.workDirExists ∧
    (g.foldl (transferFile mv i) s).outRootExists = s.outRootExists ∧
    (g.foldl (transferFile mv i) s).outDirs = s.outDirs := by
  intro g
  induction g with
  | nil => intro s; exact ⟨rfl, rfl, rfl⟩
  | cons f t ih =>
      intro s
      simpa [transferFile] using ih (transferFile mv i s f)

theorem foldl_transfer_dirLookup_ne (mv : Bool) (i j : Nat) (hj : j ≠ i) :
    ∀ (g : List MFile) (s : St),
    dirLookup j (g.foldl (transferFile mv i) s).inDirs
      = dirLookup j s.inDirs := by
  intro g
  induction g with
  | nil => intro s; rfl
  | cons f t ih =>
      intro s
      rw [List.foldl_cons, ih (transferFile mv i s f)]
      simp [transferFile, dirLookup_updateDir_ne i j f.name hj]

theorem foldl_transfer_dirLookup_self (mv : Bool) (i : Nat) :
    ∀ (g : List MFile) (s : St) (acc : List String),
    dirLookup i s.inDirs = some acc →
    dirLookup i (g.foldl (transferFile mv i) s).inDirs
      = some (g.foldl (fun a f => addName a f.name) acc) := by
  intro g
  induction g with
  | nil => intro s acc h; exact h
  | cons f t ih =>
      intro s acc h
      rw [List.foldl_cons, List.foldl_cons]
      apply ih
      simp [transferFile, dirLookup_updateDir_self, h]

theorem foldl_transfer_src (mv : Bool) (i : Nat) :
    ∀ (g : List MFile) (s : St),
    (g.foldl (transferFile mv i) s).src
      = if mv then g.foldl (fun l f => removeFile f l) s.src else s.src := by
  intro g
  induction g with
  | nil => intro s; cases mv <;> rfl
  | cons f t ih =>
      intro s
      rw [List.foldl_cons, ih (transferFile mv i s f)]
      cases mv <;> simp [transferFile]

theorem removeFile_self_cons (f : MFile) (t : List MFile) :
    removeFile f (f :: t) = t := by
  simp [removeFile]

/-- Moving every file of a directory listing, in listing order, empties
the listing. -/
theorem remove_all_self :
    ∀ l : List MFile, List.foldl (fun acc f => removeFile f acc) l l = [] := by
  intro l
  induction l with
  | nil => rfl
  | cons f t ih =>
      rw [List.foldl_cons, removeFile_self_cons]
      exact ih

theorem materializeChunk_skip (mv : Bool) (i : Nat) (g : List MFile) (s : St)
    (h : (dirLookup i s.inDirs).isSome) :
    materializeChunk mv i g s = (s, []) := by
  simp [materializeChunk, h]

theorem materializeChunk_new (mv : Bool) (i : Nat) (g : List MFile) (s : St)
    (h : dirLookup i s.inDirs = none) :
    (materializeChunk mv i g s).1.workDirExists = s.workDirExists ∧
    (materializeChunk mv i g s).1.outRootExists = s.outRootExists ∧
    (materializeChunk mv i g s).1.outDirs = s.outDirs ∧
    dirLookup i (materializeChunk mv i g s).1.inDirs = some (namesOf g) ∧
    (∀ j, j ≠ i →
      dirLookup j (materializeChunk mv i g s).1.inDirs = dirLookup j s.inDirs) ∧
    (materializeChunk mv i g s).1.src
      = (if mv then g.foldl (fun l f => removeFile f l) s.src else s.src) ∧
    (materializeChunk mv i g s).2 = Ev.mkInputDir i :: g.map (Ev.transfer i) := by
  have hns : ¬(dirLookup i s.inDirs).isSome = true := by simp [h]
  have hred : materializeChunk mv i g s
      = (g.foldl (transferFile mv i) { s with inDirs := (i, []) :: s.inDirs },
         Ev.mkInputDir i :: g.map (Ev.transfer i)) := by
    simp [materializeChunk, hns]
  rw [hred]
  have h0self :
      dirLookup i ({ s with inDirs := (i, []) :: s.inDirs} : St).inDirs
        = some [] := by
    simp [dirLookup]
  have h0ne : ∀ j, j ≠ i →
      dirLookup j ({ s with inDirs := (i, []) :: s.inDirs} : St).inDirs
        = dirLookup j s.inDirs := by
    intro j hj
    have : ¬(i = j) := fun hh => hj hh.symm
    simp [dirLookup, this]
  refine ⟨(foldl_transfer_flags mv i g _).1, (foldl_transfer_flags mv i g _).2.1,
    (foldl_transfer_flags mv i g _).2.2, ?_, ?_, ?_, rfl⟩
  · exact foldl_transfer_dirLookup_self mv i g _ [] h0self
  · intro j hj
    exact (foldl_transfer_dirLookup_ne mv i j hj g _).trans (h0ne j hj)
  · exact foldl_transfer_src mv i g _

theorem materializeAll_flags (mv : Bool) :
    ∀ (gs : List (List MFile)) (idx : Nat) (s : St) (evs : List Ev),
    (materializeAll mv idx gs s evs).1.workDirExists = s.workDirExists ∧
    (materializeAll mv idx gs s evs).1.outRootExists = s.outRootExists ∧
    (materializeAll mv idx gs s evs).1.outDirs = s.outDirs := by
  intro gs
  induction gs with
  | nil => intro idx s evs; exact ⟨rfl, rfl, rfl⟩
  | cons g rest ih =>
      intro idx s evs
      by_cases h : (dirLookup idx s.inDirs).isSome
      · simp only [materializeAll, materializeChunk_skip mv idx g s h,
          List.append_nil]
        exact ih (idx + 1) s evs
      · have h' : dirLookup idx s.inDirs = none :=
          Option.not_isSome_iff_eq_none.mp h
        have hc := materializeChunk_new mv idx g s h'
        simp only [materializeAll]
        have hrec := ih (idx + 1) (materializeChunk mv idx g s).1
          (evs ++ (materializeChunk mv idx g s).2)
        exact ⟨hrec.1.trans hc.1, hrec.2.1.trans hc.2.1, hrec.2.2.trans hc.2.2.1⟩

theorem materializeAll_skip_all (mv : Bool) :
    ∀ (gs : List (List MFile)) (idx : Nat) (s : St) (evs : List Ev),
    (∀ t, t < gs.length → (dirLookup (idx + t) s.inDirs).isSome) →
    materializeAll mv idx gs s evs = (s, evs) := by
  intro gs
  induction gs with
  | nil => intro idx s evs _; rfl
  | cons g rest ih =>
      intro idx s evs h
      have h0 : (dirLookup idx s.inDirs).isSome := by
        have := h 0 (by simp)
        simpa using this
      simp only [materializeAll, materializeChunk_skip mv idx g s h0,
        List.append_nil]
      refine ih (idx + 1) s evs (fun t ht => ?_)
      have hx := h (t + 1) (by simpa using Nat.succ_lt_succ ht)
      have he : idx + (t + 1) = idx + 1 + t := by omega
      rw [he] at hx
      exact hx

theorem materializeAll_fresh (mv : Bool) :
    ∀ (gs : List (List MFile)) (idx : Nat) (s : St) (evs : List Ev),
    (∀ j, (dirLookup j s.inDirs).isSome → j < idx) →
    ((∀ t, t < gs.length →
        dirLookup (idx + t) (materializeAll mv idx gs s evs).1.inDirs
          = some (namesOf (gs.getD t []))) ∧
     (∀ j, j < idx →
        dirLookup j (materializeAll mv idx gs s evs).1.inDirs
          = dirLookup j s.inDirs) ∧
     (∀ j, (dirLookup j (materializeAll mv idx gs s evs).1.inDirs).isSome →
        j < idx + gs.length) ∧
     (materializeAll mv idx gs s evs).1.src
        = (if mv then gs.flatten.foldl (fun l f => removeFile f l) s.src
           else s.src) ∧
     (∃ tl, (materializeAll mv idx gs s evs).2 = evs ++ tl ∧
        (∀ e, e ∈ tl →
          (∃ j, e = Ev.mkInputDir j) ∨ (∃ j f, e = Ev.transfer j f)) ∧
        (∀ t, t < gs.length → Ev.mkInputDir (idx + t) ∈ tl))) := by
  intro gs
  induction gs with
  | nil =>
      intro idx s evs hinv
      refine ⟨fun t ht => absurd ht (by simp), fun j _ => rfl,
        fun j hj => by simpa using hinv j hj, by cases mv <;> simp [materializeAll],
        ⟨[], by simp [materializeAll], fun e he => absurd he (by simp),
         fun t ht => absurd ht (by simp)⟩⟩
  | cons g rest ih =>
      intro idx s evs hinv
      have h' : dirLookup idx s.inDirs = none := by
        cases hd : dirLookup idx s.inDirs with
        | none => rfl
        | some v =>
            exact absurd (hinv idx (by simp [hd])) (lt_irrefl idx)
      have hc := materializeChunk_new mv idx g s h'
      have hinv' : ∀ j,
          (dirLookup j (materializeChunk mv idx g s).1.inDirs).isSome →
          j < idx + 1 := by
        intro j hj
        by_cases hji : j = idx
        · omega
        · rw [hc.2.2.2.2.1 j hji] at hj
          have := hinv j hj
          omega
      have hrec := ih (idx + 1) (materializeChunk mv idx g s).1
        (evs ++ (materializeChunk mv idx g s).2) hinv'
      simp only [materializeAll]
      obtain ⟨hA, hB, hC, hD, tl', htl', hshape', hmem'⟩ := hrec
      refine ⟨?_, ?_, ?_, ?_, ?_⟩
      · intro t ht
        cases t with
        | zero =>
            rw [Nat.add_zero]
            rw [hB idx (by omega)]
            simpa using hc.2.2.2.1
        | succ t' =>
            have ht' : t' < rest.length := by simpa using Nat.lt_of_succ_lt_succ ht
            have he : idx + (t' + 1) = idx + 1 + t' := by omega
            rw [he]
            simpa using hA t' ht'
      · intro j hj
        rw [hB j (by omega)]
        exact hc.2.2.2.2.1 j (by omega)
      · intro j hj
        have := hC j hj
        simpa [Nat.add_comm, Nat.add_assoc, Nat.add_left_comm] using by omega
      · rw [hD, hc.2.2.2.2.2.1]
        cases mv <;> simp [List.foldl_append]
      · refine ⟨(materializeChunk mv idx g s).2 ++ tl', by
          rw [htl']; simp [List.append_assoc], ?_, ?_⟩
        · intro e he
          rcases List.mem_append.mp he with hl | hr
          · rw [hc.2.2.2.2.2.2] at hl
            rcases List.mem_cons.mp hl with h1 | h2
            · exact Or.inl ⟨idx, h1⟩
            · rcases List.mem_map.mp h2 with ⟨f, _, hf⟩
              exact Or.inr ⟨idx, f, hf.symm⟩
          · exact hshape' e hr
        · intro t ht
          cases t with
          | zero =>
              apply List.mem_append_left
              rw [hc.2.2.2.2.2.2, Nat.add_zero]
              exact List.mem_cons_self _ _
          | succ t' =>
              apply List.mem_append_right
              have ht' : t' < rest.length := by simpa using Nat.lt_of_succ_lt_succ ht
              have he : idx + (t' + 1) = idx + 1 + t' := by omega
              rw [he]
              exact hmem' t' ht'

theorem runWorkers_preserves (wOk wp : Nat → Bool) :
    ∀ (m idx : Nat) (s : St) (evs : List Ev),
    (runWorkers wOk wp idx m s evs).2.1.workDirExists = s.workDirExists ∧
    (runWorkers wOk wp idx m s evs).2.1.outRootExists = s.outRootExists ∧
    (runWorkers wOk wp idx m s evs).2.1.src = s.src ∧
    (runWorkers wOk wp idx m s evs).2.1.inDirs = s.inDirs := by
  intro m
  induction m with
  | zero => intro idx s evs; exact ⟨rfl, rfl, rfl, rfl⟩
  | succ k ih =>
      intro idx s evs
      simp only [runWorkers]
      split_ifs with h1 h2 h3
      · exact ih (idx + 1) s _
      · exact ih (idx + 1) { s with outDirs := s.outDirs ++ [idx] } _
      · exact ⟨rfl, rfl, rfl, rfl⟩
      · exact ⟨rfl, rfl, rfl, rfl⟩

theorem runWorkers_events_mono (wOk wp : Nat → Bool) :
    ∀ (m idx : Nat) (s : St) (evs : List Ev) (e : Ev),
    e ∈ evs → e ∈ (runWorkers wOk wp idx m s evs).2.2 := by
  intro m
  induction m with
  | zero => intro idx s evs e he; exact he
  | succ k ih =>
      intro idx s evs e he
      simp only [runWorkers]
      split_ifs with h1 h2 h3
      · exact ih (idx + 1) s _ e (List.mem_append_left _ he)
      · exact ih (idx + 1) _ _ e (List.mem_append_left _ he)
      · exact List.mem_append_left _ he
      · exact List.mem_append_left _ he

theorem runWorkers_all_ok (wOk wp : Nat → Bool) :
    ∀ (m idx : Nat) (s : St) (evs : List Ev),
    (∀ j, j ∈ s.outDirs → j < idx) →
    (∀ j, idx ≤ j → j < idx + m → wOk j = true) →
    runWorkers wOk wp idx m s evs
      = (ExitRes.ok, { s with outDirs := s.outDirs ++ seqFrom idx m },
         evs ++ (seqFrom idx m).map Ev.invoke) := by
  intro m
  induction m with
  | zero =>
      intro idx s evs _ _
      simp [runWorkers, seqFrom]
  | succ k ih =>
      intro idx s evs hb hok
      have h1 : idx ∉ s.outDirs := fun hm => absurd (hb idx hm) (lt_irrefl idx)
      have h2 : wOk idx = true := hok idx le_rfl (by omega)
      simp only [runWorkers, if_neg h1, if_pos h2, h2, if_true]
      rw [ih (idx + 1) { s with outDirs := s.outDirs ++ [idx] }
        (evs ++ [Ev.invoke idx])
        (fun j hj => by
          rcases List.mem_append.mp hj with hl | hr
          · have := hb j hl; omega
          · simp at hr; omega)
        (fun j hj1 hj2 => hok j (by omega) (by omega))]
      simp [seqFrom, List.append_assoc]

theorem runWorkers_all_done (wOk wp : Nat → Bool) :
    ∀ (m idx : Nat) (s : St) (evs : List Ev),
    (∀ j, idx ≤ j → j < idx + m → j ∈ s.outDirs) →
    runWorkers wOk wp idx m s evs
      = (ExitRes.ok, s, evs ++ (seqFrom idx m).map Ev.skipChunk) := by
  intro m
  induction m with
  | zero =>
      intro idx s evs _
      simp [runWorkers, seqFrom]
  | succ k ih =>
      intro idx s evs hd
      have h1 : idx ∈ s.outDirs := hd idx le_rfl (by omega)
      simp only [runWorkers, if_pos h1]
      rw [ih (idx + 1) s (evs ++ [Ev.skipChunk idx])
        (fun j hj1 hj2 => hd j (by omega) (by omega))]
      simp [seqFrom, List.append_assoc]

theorem runWorkers_fail (wOk wp : Nat → Bool) :
    ∀ (m idx i : Nat) (s : St) (evs : List Ev),
    idx ≤ i → i < idx + m →
    (∀ j, j ∈ s.outDirs → j < idx) →
    (∀ j, idx ≤ j → j < i → wOk j = true) →
    wOk i = false →
    runWorkers wOk wp idx m s evs
      = (ExitRes.workerFailed i,
         { s with outDirs := s.outDirs ++ seqFrom idx (i - idx)
             ++ (if wp i then [i] else []) },
         evs ++ (seqFrom idx (i - idx)).map Ev.invoke ++ [Ev.invoke i]) := by
  intro m
  induction m with
  | zero =>
      intro idx i s evs h1 h2
      omega
  | succ k ih =>
      intro idx i s evs hle hlt hb hok hf
      have h1 : idx ∉ s.outDirs := fun hm => absurd (hb idx hm) (lt_irrefl idx)
      by_cases hii : idx = i
      · subst hii
        have hnok : ¬wOk idx = true := by simp [hf]
        simp only [runWorkers, if_neg h1, if_neg hnok]
        have hz : idx - idx = 0 := by omega
        rw [hz]
        cases hwp : wp idx <;> simp [seqFrom]
      · have hgt : idx < i := lt_of_le_of_ne hle hii
        have h2 : wOk idx = true := hok idx le_rfl hgt
        simp only [runWorkers, if_neg h1, if_pos h2, h2, if_true]
        rw [ih (idx + 1) i { s with outDirs := s.outDirs ++ [idx] }
          (evs ++ [Ev.invoke idx]) (by omega) (by omega)
          (fun j hj => by
            rcases List.mem_append.mp hj with hl | hr
            · have := hb j hl; omega
            · simp at hr; omega)
          (fun j hj1 hj2 => hok j (by omega) hj2) hf]
        have he : i - idx = (i - (idx + 1)) + 1 := by omega
        rw [he]
        simp [seqFrom, List.append_assoc]

theorem runWorkers_skip_mem (wOk wp : Nat → Bool) :
    ∀ (m idx : Nat) (s : St) (evs : List Ev),
    (∀ j, idx ≤ j → j < idx + m → wOk j = true) →
    ∀ j, idx ≤ j → j < idx + m → j ∈ s.outDirs →
    Ev.skipChunk j ∈ (runWorkers wOk wp idx m s evs).2.2 := by
  intro m
  induction m with
  | zero =>
      intro idx s evs _ j hj1 hj2
      omega
  | succ k ih =>
      intro idx s evs hok j hj1 hj2 hjm
      by_cases hji : j = idx
      · subst hji
        simp only [runWorkers, if_pos hjm]
        exact runWorkers_events_mono wOk wp k (j + 1) s _ _
          (List.mem_append_right _ (List.mem_singleton.mpr rfl))
      · have hgt : idx < j := lt_of_le_of_ne hj1 (fun h => hji h.symm)
        simp only [runWorkers]
        split_ifs with h1 h2 h3
        · exact ih (idx + 1) s _ (fun j' hj1' hj2' => hok j' (by omega) (by omega))
            j (by omega) (by omega) hjm
        · exact ih (idx + 1) { s with outDirs := s.outDirs ++ [idx] } _
            (fun j' hj1' hj2' => hok j' (by omega) (by omega))
            j (by omega) (by omega) (List.mem_append_left _ hjm)
        · exact absurd (hok idx le_rfl (by omega)) h2
        · exact absurd (hok idx le_rfl (by omega)) h2

/-- `runMain` specialised to a positive chunk count: the empty-corpus
check and the chunk computation succeed, leaving materialization followed
by the worker loop. -/
def runMainN (n : Nat) (mv : Bool) (wOk wp : Nat → Bool) (s : St) : RunOut :=
  let p := materializeAll mv 0 (chunkify s.src n)
    { s with workDirExists := true } [Ev.mkWorkDir]
  let q := runWorkers wOk wp 0 n
    { p.1 with outRootExists := true } (p.2 ++ [Ev.mkOutRoot])
  ⟨q.1, q.2.2, q.2.1⟩

theorem runMain_eq_runMainN (n : Nat) (mv : Bool) (wOk wp : Nat → Bool)
    (s : St) (hn : 1 ≤ n) (h : s.src ≠ []) :
    runMain (↑n) mv wOk wp s = runMainN n mv wOk wp s := by
  have h0 : ¬((n : Int) = 0) := by omega
  have h1 : ¬((n : Int) < 0) := by omega
  have ht : ((n : Int)).toNat = n := by omega
  simp [runMain, chunkifyPy, runMainN, h, h0, h1, ht]

theorem runMainN_decompose (n : Nat) (mv : Bool) (wOk wp : Nat → Bool)
    (c : List MFile) :
    runMainN n mv wOk wp (freshSt c)
      = (let p := materializeAll mv 0 (chunkify c n)
           (St.mk true false c [] []) [Ev.mkWorkDir]
         let q := runWorkers wOk wp 0 n
           (St.mk p.1.workDirExists true p.1.src p.1.inDirs p.1.outDirs)
           (p.2 ++ [Ev.mkOutRoot])
         RunOut.mk q.1 q.2.2 q.2.1) := rfl

theorem firstRun_spec (c : List MFile) (n : Nat) (mv : Bool)
    (wOk wp : Nat → Bool) (hc : c ≠ []) (hn : 1 ≤ n)
    (hw : ∀ j, j < n → wOk j = true) :
    (runMain ↑n mv wOk wp (freshSt c)).res = ExitRes.ok ∧
    (runMain ↑n mv wOk wp (freshSt c)).st.src = (if mv then [] else c) ∧
    (∀ t, t < n →
      dirLookup t (runMain ↑n mv wOk wp (freshSt c)).st.inDirs
        = some (namesOf (groupOf c n t))) ∧
    (runMain ↑n mv wOk wp (freshSt c)).st.outDirs = seqFrom 0 n ∧
    (∃ tl, (runMain ↑n mv wOk wp (freshSt c)).events
        = Ev.mkWorkDir :: (tl ++ (Ev.mkOutRoot :: (seqFrom 0 n).map Ev.invoke)) ∧
      (∀ e, e ∈ tl →
        (∃ j, e = Ev.mkInputDir j) ∨ (∃ j f, e = Ev.transfer j f)) ∧
      (∀ t, t < n → Ev.mkInputDir t ∈ tl)) := by
  have hfresh : ∀ j,
      (dirLookup j (St.mk true false c [] []).inDirs).isSome → j < 0 := by
    intro j hj
    simp [dirLookup] at hj
  obtain ⟨hA, hB, hC, hD, tl, htl, hshape, hmem⟩ :=
    materializeAll_fresh mv (chunkify c n) 0 (St.mk true false c [] [])
      [Ev.mkWorkDir] hfresh
  have hflags := materializeAll_flags mv (chunkify c n) 0
    (St.mk true false c [] []) [Ev.mkWorkDir]
  have hlen : (chunkify c n).length = n := length_chunkify c n
  rw [hlen] at hA hC hmem
  generalize hP : materializeAll mv 0 (chunkify c n) (St.mk true false c [] [])
      [Ev.mkWorkDir] = P at hA hD htl hflags
  have houtb : ∀ j,
      j ∈ (St.mk P.1.workDirExists true P.1.src P.1.inDirs P.1.outDirs).outDirs →
      j < 0 := by
    intro j hj
    have : j ∈ P.1.outDirs := hj
    rw [hflags.2.2] at this
    simp at this
  have hwrk := runWorkers_all_ok wOk wp n 0
    (St.mk P.1.workDirExists true P.1.src P.1.inDirs P.1.outDirs)
    (P.2 ++ [Ev.mkOutRoot]) houtb (fun j h1 h2 => hw j (by omega))
  rw [runMain_eq_runMainN n mv wOk wp (freshSt c) hn hc, runMainN_decompose]
  dsimp only
  rw [hP, hwrk]
  refine ⟨rfl, ?_, ?_, ?_, ?_⟩
  · show P.1.src = (if mv then [] else c)
    rw [hD]
    cases mv
    · rfl
    · simp only [if_true]
      show List.foldl (fun l f => removeFile f l) c (chunkify c n).flatten
          = []
      rw [flatten_chunkify c n hn]
      exact remove_all_self c
  · intro t ht
    have := hA t ht
    rw [Nat.zero_add] at this
    exact this
  · show P.1.outDirs ++ seqFrom 0 n = seqFrom 0 n
    rw [hflags.2.2]
    rfl
  · refine ⟨tl, ?_, hshape, fun t ht => ?_⟩
    · show (P.2 ++ [Ev.mkOutRoot]) ++ (seqFrom 0 n).map Ev.invoke
          = Ev.mkWorkDir :: (tl ++ (Ev.mkOutRoot :: (seqFrom 0 n).map Ev.invoke))
      rw [htl]
      simp
    · have := hmem t ht
      rw [Nat.zero_add] at this
      exact this

theorem runMainN_decompose_st (n : Nat) (mv : Bool) (wOk wp : Nat → Bool)
    (s : St) :
    runMainN n mv wOk wp s
      = (let p := materializeAll mv 0 (chunkify s.src n)
           (St.mk true s.outRootExists s.src s.inDirs s.outDirs) [Ev.mkWorkDir]
         let q := runWorkers wOk wp 0 n
           (St.mk p.1.workDirExists true p.1.src p.1.inDirs p.1.outDirs)
           (p.2 ++ [Ev.mkOutRoot])
         RunOut.mk q.1 q.2.2 q.2.1) := rfl

theorem failRun_spec (c : List MFile) (n i : Nat) (mv : Bool)
    (wOk wp : Nat → Bool) (hc : c ≠ []) (hn : 1 ≤ n) (hi : i < n)
    (hw : ∀ j, j < i → wOk j = true) (hf : wOk i = false) :
    (runMain ↑n mv wOk wp (freshSt c)).res = ExitRes.workerFailed i ∧
    (runMain ↑n mv wOk wp (freshSt c)).st.src = (if mv then [] else c) ∧
    (∀ t, t < n →
      dirLookup t (runMain ↑n mv wOk wp (freshSt c)).st.inDirs
        = some (namesOf (groupOf c n t))) ∧
    (runMain ↑n mv wOk wp (freshSt c)).st.outDirs
      = seqFrom 0 i ++ (if wp i then [i] else []) ∧
    (∃ tl, (runMain ↑n mv wOk wp (freshSt c)).events
        = Ev.mkWorkDir :: (tl ++ (Ev.mkOutRoot ::
            ((seqFrom 0 i).map Ev.invoke ++ [Ev.invoke i]))) ∧
      (∀ e, e ∈ tl →
        (∃ j, e = Ev.mkInputDir j) ∨ (∃ j f, e = Ev.transfer j f)) ∧
      (∀ t, t < n → Ev.mkInputDir t ∈ tl)) := by
  have hfresh : ∀ j,
      (dirLookup j (St.mk true false c [] []).inDirs).isSome → j < 0 := by
    intro j hj
    simp [dirLookup] at hj
  obtain ⟨hA, hB, hC, hD, tl, htl, hshape, hmem⟩ :=
    materializeAll_fresh mv (chunkify c n) 0 (St.mk true false c [] [])
      [Ev.mkWorkDir] hfresh
  have hflags := materializeAll_flags mv (chunkify c n) 0
    (St.mk true false c [] []) [Ev.mkWorkDir]
  have hlen : (chunkify c n).length = n := length_chunkify c n
  rw [hlen] at hA hC hmem
  generalize hP : materializeAll mv 0 (chunkify c n) (St.mk true false c [] [])
      [Ev.mkWorkDir] = P at hA hD htl hflags
  have houtb : ∀ j,
      j ∈ (St.mk P.1.workDirExists true P.1.src P.1.inDirs P.1.outDirs).outDirs →
      j < 0 := by
    intro j hj
    have : j ∈ P.1.outDirs := hj
    rw [hflags.2.2] at this
    simp at this
  have hwrk := runWorkers_fail wOk wp n 0 i
    (St.mk P.1.workDirExists true P.1.src P.1.inDirs P.1.outDirs)
    (P.2 ++ [Ev.mkOutRoot]) (Nat.zero_le i) (by omega) houtb
    (fun j _ hj => hw j hj) hf
  rw [Nat.sub_zero] at hwrk
  rw [runMain_eq_runMainN n mv wOk wp (freshSt c) hn hc, runMainN_decompose]
  dsimp only
  rw [hP, hwrk]
  refine ⟨rfl, ?_, ?_, ?_, ?_⟩
  · show P.1.src = (if mv then [] else c)
    rw [hD]
    cases mv
    · rfl
    · simp only [if_true]
      show List.foldl (fun l f => removeFile f l) c (chunkify c n).flatten
          = []
      rw [flatten_chunkify c n hn]
      exact remove_all_self c
  · intro t ht
    have := hA t ht
    rw [Nat.zero_add] at this
    exact this
  · show P.1.outDirs ++ seqFrom 0 i ++ (if wp i then [i] else [])
        = seqFrom 0 i ++ (if wp i then [i] else [])
    rw [hflags.2.2]
    rfl
  · refine ⟨tl, ?_, hshape, fun t ht => ?_⟩
    · show (P.2 ++ [Ev.mkOutRoot]) ++ (seqFrom 0 i).map Ev.invoke
            ++ [Ev.invoke i]
          = Ev.mkWorkDir :: (tl ++ (Ev.mkOutRoot ::
              ((seqFrom 0 i).map Ev.invoke ++ [Ev.invoke i])))
      rw [htl]
      simp
    · have := hmem t ht
      rw [Nat.zero_add] at this
      exact this

theorem runMain_noFiles (n : Int) (mv : Bool) (wOk wp : Nat → Bool) (s : St)
    (h : s.src = []) :
    runMain n mv wOk wp s = ⟨ExitRes.noFiles, [], s⟩ := by
  simp [runMain, h]

theorem secondRun_all_skip (n : Nat) (mv : Bool) (wOk wp : Nat → Bool)
    (S : St) (hc : S.src ≠ []) (hn : 1 ≤ n)
    (hin : ∀ t, t < n → (dirLookup t S.inDirs).isSome)
    (hout : ∀ j, j < n → j ∈ S.outDirs) :
    runMain ↑n mv wOk wp S
      = ⟨ExitRes.ok,
         Ev.mkWorkDir :: Ev.mkOutRoot :: (seqFrom 0 n).map Ev.skipChunk,
         St.mk true true S.src S.inDirs S.outDirs⟩ := by
  rw [runMain_eq_runMainN n mv wOk wp S hn hc, runMainN_decompose_st]
  dsimp only
  have hskip := materializeAll_skip_all mv (chunkify S.src n) 0
    (St.mk true S.outRootExists S.src S.inDirs S.outDirs) [Ev.mkWorkDir]
    (fun t ht => by
      rw [Nat.zero_add]
      rw [length_chunkify] at ht
      exact hin t ht)
  rw [hskip]
  dsimp only
  have hdone := runWorkers_all_done wOk wp n 0
    (St.mk true true S.src S.inDirs S.outDirs)
    ([Ev.mkWorkDir] ++ [Ev.mkOutRoot])
    (fun j h1 h2 => hout j (by omega))
  rw [hdone]
  rfl

/-- C1 fails on the code in move mode: with a one-file corpus and one
chunk, the first (move-mode) run succeeds, but the second run exits with
the empty-corpus error — the first run moved every source file into the
work area — so chunk 0's worker invocation is not skipped via its
existing output_dir; the per-chunk skip logic is never reached. -/
theorem second_run_skip_counterexample :
    (runMain 1 true wTrue wFalse (freshSt [MFile.mk "s" "a"])).res
      = ExitRes.ok ∧
    (runMain 1 true wTrue wFalse
      (runMain 1 true wTrue wFalse (freshSt [MFile.mk "s" "a"])).st).res
      = ExitRes.noFiles ∧
    Ev.skipChunk 0 ∉
      (runMain 1 true wTrue wFalse
        (runMain 1 true wTrue wFalse (freshSt [MFile.mk "s" "a"])).st).events := by
  decide

/-- C1 amended: a second invocation after a completed failure-free run
performs zero additional file transfers and zero additional worker
invocations; in copy mode this is exactly as claimed — for every chunk
index the existing input_dir causes materialization to be skipped and the
existing output_dir causes the worker invocation to be skipped — but in
move mode the second run instead aborts immediately with the
empty-corpus error (the first run moved all source files away) and never
reaches the per-chunk skip logic, still performing zero transfers and
zero invocations. -/
theorem second_run_idempotent (c : List MFile) (n : Nat)
    (wp1 wp2 : Nat → Bool) (hc : c ≠ []) (hn : 1 ≤ n) :
    ((runMain ↑n false wTrue wp1 (freshSt c)).res = ExitRes.ok ∧
     (runMain ↑n false wTrue wp2
        (runMain ↑n false wTrue wp1 (freshSt c)).st).res = ExitRes.ok ∧
     (∀ i f, Ev.transfer i f ∉
        (runMain ↑n false wTrue wp2
          (runMain ↑n false wTrue wp1 (freshSt c)).st).events) ∧
     (∀ i, Ev.invoke i ∉
        (runMain ↑n false wTrue wp2
          (runMain ↑n false wTrue wp1 (freshSt c)).st).events) ∧
     (∀ i, Ev.mkInputDir i ∉
        (runMain ↑n false wTrue wp2
          (runMain ↑n false wTrue wp1 (freshSt c)).st).events) ∧
     (∀ i, i < n → Ev.skipChunk i ∈
        (runMain ↑n false wTrue wp2
          (runMain ↑n false wTrue wp1 (freshSt c)).st).events)) ∧
    ((runMain ↑n true wTrue wp1 (freshSt c)).res = ExitRes.ok ∧
     (runMain ↑n true wTrue wp2
        (runMain ↑n true wTrue wp1 (freshSt c)).st).res = ExitRes.noFiles ∧
     (runMain ↑n true wTrue wp2
        (runMain ↑n true wTrue wp1 (freshSt c)).st).events = []) := by
  constructor
  · obtain ⟨hres, hsrc, hin, hout, _⟩ :=
      firstRun_spec c n false wTrue wp1 hc hn (fun j _ => rfl)
    have hsrc' : (runMain ↑n false wTrue wp1 (freshSt c)).st.src = c := by
      simpa using hsrc
    have hr2 := secondRun_all_skip n false wTrue wp2
      (runMain ↑n false wTrue wp1 (freshSt c)).st
      (by rw [hsrc']; exact hc) hn
      (fun t ht => by rw [hin t ht]; rfl)
      (fun j hj => by rw [hout]; exact (mem_seqFrom n 0 j).mpr (by omega))
    rw [hr2]
    refine ⟨hres, rfl, ?_, ?_, ?_, ?_⟩
    · intro i f
      simp
    · intro i
      simp
    · intro i
      simp
    · intro i hi
      simp only [RunOut.events]
      exact List.mem_cons_of_mem _ (List.mem_cons_of_mem _
        (List.mem_map.mpr ⟨i, (mem_seqFrom n 0 i).mpr (by omega), rfl⟩))
  · obtain ⟨hres, hsrc, _, _, _⟩ :=
      firstRun_spec c n true wTrue wp1 hc hn (fun j _ => rfl)
    have hsrc' : (runMain ↑n true wTrue wp1 (freshSt c)).st.src = [] := by
      simpa using hsrc
    rw [runMain_noFiles (↑n) true wTrue wp2 _ hsrc']
    exact ⟨hres, rfl, rfl⟩

theorem second_run_idempotent_witness :
    ([MFile.mk "s" "a"] ≠ ([] : List MFile)) ∧ 1 ≤ 1 ∧
    ((((runMain ((1 : Nat) : Int) false wTrue wFalse
          (freshSt [MFile.mk "s" "a"])).res = ExitRes.ok ∧
       (runMain ((1 : Nat) : Int) false wTrue wFalse
          (runMain ((1 : Nat) : Int) false wTrue wFalse
            (freshSt [MFile.mk "s" "a"])).st).res = ExitRes.ok ∧
       (∀ i f, Ev.transfer i f ∉
          (runMain ((1 : Nat) : Int) false wTrue wFalse
            (runMain ((1 : Nat) : Int) false wTrue wFalse
              (freshSt [MFile.mk "s" "a"])).st).events) ∧
       (∀ i, Ev.invoke i ∉
          (runMain ((1 : Nat) : Int) false wTrue wFalse
            (runMain ((1 : Nat) : Int) false wTrue wFalse
              (freshSt [MFile.mk "s" "a"])).st).events) ∧
       (∀ i, Ev.mkInputDir i ∉
          (runMain ((1 : Nat) : Int) false wTrue wFalse
            (runMain ((1 : Nat) : Int) false wTrue wFalse
              (freshSt [MFile.mk "s" "a"])).st).events) ∧
       (∀ i, i < 1 → Ev.skipChunk i ∈
          (runMain ((1 : Nat) : Int) false wTrue wFalse
            (runMain ((1 : Nat) : Int) false wTrue wFalse
              (freshSt [MFile.mk "s" "a"])).st).events)) ∧
      ((runMain ((1 : Nat) : Int) true wTrue wFalse
          (freshSt [MFile.mk "s" "a"])).res = ExitRes.ok ∧
       (runMain ((1 : Nat) : Int) true wTrue wFalse
          (runMain ((1 : Nat) : Int) true wTrue wFalse
            (freshSt [MFile.mk "s" "a"])).st).res = ExitRes.noFiles ∧
       (runMain ((1 : Nat) : Int) true wTrue wFalse
          (runMain ((1 : Nat) : Int) true wTrue wFalse
            (freshSt [MFile.mk "s" "a"])).st).events = []))) :=
  ⟨by decide, by decide,
    second_run_idempotent [MFile.mk "s" "a"] 1 wFalse wFalse
      (by decide) (by decide)⟩

/-- A worker that succeeds only on chunk 0. -/
def wZero : Nat → Bool := fun j => j == 0

/-- C5: when the worker exits non-zero on chunk `i` (all earlier chunks
having succeeded), the run terminates with `sys.exit(1)` reporting chunk
`i`, no later chunk's worker is ever invoked, every earlier chunk's
output dir remains on disk, a partial output dir left by the crashed
worker is not cleaned up, and on a retry (here: default copy mode, with
the cause fixed) every previously completed chunk is skipped. -/
theorem worker_failure_halts (c : List MFile) (n i : Nat) (mv : Bool)
    (wOk wp wp2 : Nat → Bool) (hc : c ≠ []) (hn : 1 ≤ n) (hi : i < n)
    (hw : ∀ j, j < i → wOk j = true) (hf : wOk i = false) :
    ((runMain ↑n mv wOk wp (freshSt c)).res = ExitRes.workerFailed i ∧
     (∀ j, i < j → Ev.invoke j ∉ (runMain ↑n mv wOk wp (freshSt c)).events) ∧
     (∀ j, j < i → j ∈ (runMain ↑n mv wOk wp (freshSt c)).st.outDirs) ∧
     (wp i = true → i ∈ (runMain ↑n mv wOk wp (freshSt c)).st.outDirs)) ∧
    (∀ j, j < i →
      Ev.skipChunk j ∈
        (runMain ↑n false wTrue wp2
          (runMain ↑n false wOk wp (freshSt c)).st).events) := by
  constructor
  · obtain ⟨hres, hsrc, hin, hout, tl, hev, hshape, hmem⟩ :=
      failRun_spec c n i mv wOk wp hc hn hi hw hf
    refine ⟨hres, ?_, ?_, ?_⟩
    · intro j hj hmemj
      rw [hev] at hmemj
      rcases List.mem_cons.mp hmemj with h1 | h2
      · exact absurd h1 (by simp)
      rcases List.mem_append.mp h2 with h3 | h4
      · rcases hshape _ h3 with ⟨j', hj'⟩ | ⟨j', f', hj'⟩ <;> simp at hj'
      rcases List.mem_cons.mp h4 with h5 | h6
      · exact absurd h5 (by simp)
      rcases List.mem_append.mp h6 with h7 | h8
      · rcases List.mem_map.mp h7 with ⟨j', hj'seq, hj'eq⟩
        have : j' = j := by
          have := Ev.invoke.injEq j' j
          simp at hj'eq
          omega
        have := (mem_seqFrom i 0 j').mp hj'seq
        omega
      · have : j = i := by
          simp at h8
          omega
        omega
    · intro j hj
      rw [hout]
      exact List.mem_append_left _ ((mem_seqFrom i 0 j).mpr (by omega))
    · intro hwpi
      rw [hout, hwpi]
      exact List.mem_append_right _ (by simp)
  · obtain ⟨hres, hsrc, hin, hout, _⟩ :=
      failRun_spec c n i false wOk wp hc hn hi hw hf
    have hsrc' : (runMain ↑n false wOk wp (freshSt c)).st.src = c := by
      simpa using hsrc
    intro j hj
    rw [runMain_eq_runMainN n false wTrue wp2 _ hn (by rw [hsrc']; exact hc),
      runMainN_decompose_st]
    dsimp only
    rw [hsrc']
    have hskip := materializeAll_skip_all false (chunkify c n) 0
      (St.mk true (runMain ↑n false wOk wp (freshSt c)).st.outRootExists c
        (runMain ↑n false wOk wp (freshSt c)).st.inDirs
        (runMain ↑n false wOk wp (freshSt c)).st.outDirs) [Ev.mkWorkDir]
      (fun t ht => by
        rw [Nat.zero_add]
        rw [length_chunkify] at ht
        show (dirLookup t (runMain ↑n false wOk wp (freshSt c)).st.inDirs).isSome
          = true
        rw [hin t ht]
        rfl)
    rw [hskip]
    dsimp only
    refine runWorkers_skip_mem wTrue wp2 n 0 _ _ (fun j' _ _ => rfl) j
      (Nat.zero_le j) (by omega) ?_
    show j ∈ (runMain ↑n false wOk wp (freshSt c)).st.outDirs
    rw [hout]
    exact List.mem_append_left _ ((mem_seqFrom i 0 j).mpr (by omega))

theorem worker_failure_halts_witness :
    ([MFile.mk "s" "a", MFile.mk "s" "b"] ≠ ([] : List MFile)) ∧
    1 ≤ 2 ∧ 1 < 2 ∧ (∀ j, j < 1 → wZero j = true) ∧ wZero 1 = false ∧
    ((((runMain ((2 : Nat) : Int) false wZero wFalse
          (freshSt [MFile.mk "s" "a", MFile.mk "s" "b"])).res
            = ExitRes.workerFailed 1 ∧
       (∀ j, 1 < j → Ev.invoke j ∉
          (runMain ((2 : Nat) : Int) false wZero wFalse
            (freshSt [MFile.mk "s" "a", MFile.mk "s" "b"])).events) ∧
       (∀ j, j < 1 → j ∈
          (runMain ((2 : Nat) : Int) false wZero wFalse
            (freshSt [MFile.mk "s" "a", MFile.mk "s" "b"])).st.outDirs) ∧
       (wFalse 1 = true → 1 ∈
          (runMain ((2 : Nat) : Int) false wZero wFalse
            (freshSt [MFile.mk "s" "a", MFile.mk "s" "b"])).st.outDirs)) ∧
      (∀ j, j < 1 →
        Ev.skipChunk j ∈
          (runMain ((2 : Nat) : Int) false wTrue wFalse
            (runMain ((2 : Nat) : Int) false wZero wFalse
              (freshSt [MFile.mk "s" "a", MFile.mk "s" "b"])).st).events))) :=
  ⟨by decide, by decide, by decide, by decide, by decide,
    worker_failure_halts [MFile.mk "s" "a", MFile.mk "s" "b"] 2 1 false
      wZero wFalse wFalse (by decide) (by decide) (by decide)
      (by decide) (by decide)⟩

/-- C9 fails on the code: two source files in different subdirectories
share the basename `x`; both are assigned to chunk 0, yet its input dir
ends up holding a single file (the second copy overwrote the first), so
the file count 1 differs from the 2 assigned inputs. -/
theorem input_dir_count_counterexample :
    (groupOf [MFile.mk "a" "x", MFile.mk "b" "x"] 1 0).length = 2 ∧
    dirLookup 0 (runMain 1 false wTrue wFalse
        (freshSt [MFile.mk "a" "x", MFile.mk "b" "x"])).st.inDirs
      = some ["x"] := by
  decide

/-- C9 amended: once materialized, a chunk's input dir contains exactly
the distinct basenames of its assigned inputs, in first-occurrence order
(`namesOf`) — a later same-named copy overwrites an earlier one — so the
file count equals the number of distinct basenames, which is smaller
than the number of assigned inputs when basenames repeat. -/
theorem input_dir_holds_distinct_names (c : List MFile) (n : Nat)
    (mv : Bool) (wOk wp : Nat → Bool) (hc : c ≠ []) (hn : 1 ≤ n)
    (i : Nat) (hi : i < n) :
    dirLookup i (runMain ↑n mv wOk wp (freshSt c)).st.inDirs
      = some (namesOf (groupOf c n i)) := by
  have hfresh : ∀ j,
      (dirLookup j (St.mk true false c [] []).inDirs).isSome → j < 0 := by
    intro j hj
    simp [dirLookup] at hj
  obtain ⟨hA, hB, hC, hD, tl, htl, hshape, hmem⟩ :=
    materializeAll_fresh mv (chunkify c n) 0 (St.mk true false c [] [])
      [Ev.mkWorkDir] hfresh
  have hlen : (chunkify c n).length = n := length_chunkify c n
  rw [hlen] at hA
  rw [runMain_eq_runMainN n mv wOk wp (freshSt c) hn hc, runMainN_decompose]
  dsimp only
  rw [(runWorkers_preserves wOk wp n 0 _ _).2.2.2]
  have := hA i hi
  rw [Nat.zero_add] at this
  exact this

theorem input_dir_holds_distinct_names_witness :
    ([MFile.mk "a" "x", MFile.mk "b" "x"] ≠ ([] : List MFile)) ∧
    1 ≤ 1 ∧ 0 < 1 ∧
    dirLookup 0 (runMain ((1 : Nat) : Int) false wTrue wFalse
        (freshSt [MFile.mk "a" "x", MFile.mk "b" "x"])).st.inDirs
      = some (namesOf (groupOf [MFile.mk "a" "x", MFile.mk "b" "x"] 1 0)) :=
  ⟨by decide, by decide, by decide,
    input_dir_holds_distinct_names [MFile.mk "a" "x", MFile.mk "b" "x"] 1
      false wTrue wFalse (by decide) (by decide) 0 (by decide)⟩

/-- C10: a chunk whose assigned group is empty is not skipped: its
(empty) input directory is still created and the external worker is
still invoked on it exactly once. -/
theorem empty_chunk_still_processed (c : List MFile) (n i : Nat)
    (mv : Bool) (wOk wp : Nat → Bool) (hc : c ≠ []) (hn : 1 ≤ n)
    (hi : i < n) (hw : ∀ j, j < n → wOk j = true)
    (hg : groupOf c n i = []) :
    dirLookup i (runMain ↑n mv wOk wp (freshSt c)).st.inDirs = some [] ∧
    Ev.mkInputDir i ∈ (runMain ↑n mv wOk wp (freshSt c)).events ∧
    countIn (Ev.invoke i) (runMain ↑n mv wOk wp (freshSt c)).events = 1 := by
  obtain ⟨hres, hsrc, hin, hout, tl, hev, hshape, hmem⟩ :=
    firstRun_spec c n mv wOk wp hc hn hw
  refine ⟨?_, ?_, ?_⟩
  · rw [hin i hi, hg]
    rfl
  · rw [hev]
    exact List.mem_cons_of_mem _ (List.mem_append_left _ (hmem i hi))
  · rw [hev]
    have h1 : Ev.invoke i ∉ tl := by
      intro hmemtl
      rcases hshape _ hmemtl with ⟨j, hj⟩ | ⟨j, f, hj⟩ <;> simp at hj
    have h2 := countIn_invoke_seqFrom n 0 i
    rw [if_pos (by omega)] at h2
    simp [countIn, countIn_append, countIn_eq_zero _ _ h1, h2]

theorem empty_chunk_still_processed_witness :
    ([MFile.mk "s" "a"] ≠ ([] : List MFile)) ∧ 1 ≤ 2 ∧ 1 < 2 ∧
    (∀ j, j < 2 → wTrue j = true) ∧
    groupOf [MFile.mk "s" "a"] 2 1 = [] ∧
    (dirLookup 1 (runMain ((2 : Nat) : Int) false wTrue wFalse
        (freshSt [MFile.mk "s" "a"])).st.inDirs = some [] ∧
     Ev.mkInputDir 1 ∈
       (runMain ((2 : Nat) : Int) false wTrue wFalse
         (freshSt [MFile.mk "s" "a"])).events ∧
     countIn (Ev.invoke 1)
       (runMain ((2 : Nat) : Int) false wTrue wFalse
         (freshSt [MFile.mk "s" "a"])).events = 1) :=
  ⟨by decide, by decide, by decide, by decide, by decide,
    empty_chunk_still_processed [MFile.mk "s" "a"] 2 1 false wTrue wFalse
      (by decide) (by decide) (by decide) (by decide) (by decide)⟩

/-- C6 fails on the code: with one source file, chunk count `-1` does not
fail at all (the run exits 0, processing nothing), and chunk count `0`
aborts with an uncaught `ZeroDivisionError` — not before the file-system
mutation, since the work directory has already been created. -/
theorem chunk_count_validation_counterexample :
    (runMain (-1) false wTrue wFalse (freshSt [⟨"s", "a"⟩])).res
      = ExitRes.ok ∧
    (runMain 0 false wTrue wFalse (freshSt [⟨"s", "a"⟩])).res
      = ExitRes.zeroDiv ∧
    (runMain 0 false wTrue wFalse (freshSt [⟨"s", "a"⟩])).st.workDirExists
      = true := by
  decide

/-- C6 amended: the code never validates the chunk count. With a
nonempty corpus, `N = 0` aborts the run with an uncaught
`ZeroDivisionError`, but only after the work directory has been created
(a file-system mutation precedes the report); for `N < 0` the run does
not fail at all: it creates the work directory and the output root,
transfers no file, invokes no worker, and exits 0. -/
theorem chunk_count_unvalidated (s : St) (mv : Bool)
    (wOk wPartial : Nat → Bool) (h : s.src ≠ []) :
    ((runMain 0 mv wOk wPartial s).res = ExitRes.zeroDiv ∧
     (runMain 0 mv wOk wPartial s).st.workDirExists = true ∧
     (runMain 0 mv wOk wPartial s).events = [Ev.mkWorkDir]) ∧
    (∀ n : Int, n < 0 →
      (runMain n mv wOk wPartial s).res = ExitRes.ok ∧
      (runMain n mv wOk wPartial s).events = [Ev.mkWorkDir, Ev.mkOutRoot]) := by
  constructor
  · simp [runMain, h, chunkifyPy]
  · intro n hn
    have h0 : n ≠ 0 := by omega
    have ht : n.toNat = 0 := Int.toNat_of_nonpos (by omega)
    simp [runMain, h, chunkifyPy, h0, hn, ht, materializeAll, runWorkers]

theorem chunk_count_unvalidated_witness :
    (freshSt [⟨"s", "a"⟩]).src ≠ [] ∧
    (((runMain 0 false wTrue wFalse (freshSt [⟨"s", "a"⟩])).res
        = ExitRes.zeroDiv ∧
      (runMain 0 false wTrue wFalse (freshSt [⟨"s", "a"⟩])).st.workDirExists
        = true ∧
      (runMain 0 false wTrue wFalse (freshSt [⟨"s", "a"⟩])).events
        = [Ev.mkWorkDir]) ∧
     (∀ n : Int, n < 0 →
       (runMain n false wTrue wFalse (freshSt [⟨"s", "a"⟩])).res
         = ExitRes.ok ∧
       (runMain n false wTrue wFalse (freshSt [⟨"s", "a"⟩])).events
         = [Ev.mkWorkDir, Ev.mkOutRoot])) :=
  ⟨by decide, chunk_count_unvalidated _ false wTrue wFalse (by decide)⟩

/-- Diagnostics and copies of one run of `merge_outputs.py`. -/
inductive MEv where
  | warnMissing : Nat → MEv
  | collision : Nat → String → MEv
  | copyFile : Nat → String → MEv
deriving DecidableEq

/-- First-match lookup of a file name in a directory listing of
(name, content) pairs; a real directory holds each name at most once. -/
def destLookup (nm : String) : List (String × String) → Option String
  | [] => none
  | p :: rest => if p.1 = nm then some p.2 else destLookup nm rest

/-- Overwrite the file called `nm` with content `cnt`. -/
def destReplace (nm cnt : String) :
    List (String × String) → List (String × String)
  | [] => []
  | p :: rest =>
    if p.1 = nm then (p.1, cnt) :: rest else p :: destReplace nm cnt rest

/-- The collision check plus `shutil.copy2(f, target)`
(`merge_outputs.py` lines 38-44) for one file `p` of chunk `i`:
an existing destination file is skipped with a collision report unless
`--overwrite` was given, in which case it is replaced silently. -/
def mergeFile (ow : Bool) (i : Nat)
    (acc : List (String × String) × List MEv) (p : String × String) :
    List (String × String) × List MEv :=
  if (destLookup p.1 acc.1).isSome then
    if ow then (destReplace p.1 p.2 acc.1, acc.2 ++ [MEv.copyFile i p.1])
    else (acc.1, acc.2 ++ [MEv.collision i p.1])
  else (acc.1 ++ [p], acc.2 ++ [MEv.copyFile i p.1])

/-- One iteration of the merge loop: a missing chunk directory yields a
non-fatal warning; an existing one has each of its entries merged. -/
def mergeChunk (ow : Bool) (dirs : Nat → Option (List (String × String)))
    (i : Nat) (acc : List (String × String) × List MEv) :
    List (String × String) × List MEv :=
  match dirs i with
  | none => (acc.1, acc.2 ++ [MEv.warnMissing i])
  | some fs => fs.foldl (mergeFile ow i) acc

/-- `for idx in range(a.chunks)` of `merge_outputs.py`, starting at
chunk `i` with `m` chunks left. -/
def mergeLoop (ow : Bool) (dirs : Nat → Option (List (String × String))) :
    Nat → Nat → List (String × String) × List MEv →
      List (String × String) × List MEv
  | _, 0, acc => acc
  | i, m + 1, acc => mergeLoop ow dirs (i + 1) m (mergeChunk ow dirs i acc)

structure MergeOut where
  dest : List (String × String)
  events : List MEv
  exitCode : Nat
deriving DecidableEq

/-- `main` of `merge_outputs.py`: create the destination directory
(additively, `exist_ok=True`), merge the expected chunk directories
`0..n-1` into it, and finish; no code path exits non-zero. -/
def mergeRun (n : Nat) (ow : Bool)
    (dirs : Nat → Option (List (String × String)))
    (dest0 : List (String × String)) : MergeOut :=
  let r := mergeLoop ow dirs 0 n (dest0, [])
  ⟨r.1, r.2, 0⟩

theorem destLookup_append (nm : String) :
    ∀ (d l : List (String × String)),
    destLookup nm (d ++ l)
      = (match destLookup nm d with
         | some cnt => some cnt
         | none => destLookup nm l) := by
  intro d l
  induction d with
  | nil => simp [destLookup]
  | cons p rest ih =>
      by_cases hp : p.1 = nm
      · simp [destLookup, hp]
      · simp [destLookup, hp, ih]

theorem destLookup_destReplace_self (nm cnt : String) :
    ∀ d : List (String × String),
    destLookup nm (destReplace nm cnt d)
      = (destLookup nm d).map (fun _ => cnt) := by
  intro d
  induction d with
  | nil => simp [destReplace, destLookup]
  | cons p rest ih =>
      by_cases hp : p.1 = nm
      · simp [destReplace, destLookup, hp]
      · simp [destReplace, destLookup, hp, ih]

theorem destLookup_destReplace_ne (nm k cnt : String) (hk : ¬k = nm) :
    ∀ d : List (String × String),
    destLookup nm (destReplace k cnt d) = destLookup nm d := by
  intro d
  induction d with
  | nil => simp [destReplace, destLookup]
  | cons p rest ih =>
      have hnk : ¬nm = k := fun h => hk h.symm
      by_cases hp : p.1 = k
      · have hpn : ¬p.1 = nm := by rw [hp]; exact hk
        simp [destReplace, destLookup, hp, hpn, hk]
      · by_cases hpn : p.1 = nm
        · simp [destReplace, destLookup, hp, hpn, hnk]
        · simp [destReplace, destLookup, hp, hpn, ih]

/-- The content of the last file called `nm` among `fs`, defaulting to
`dflt` when none is called `nm`. -/
def lastNameVal (nm : String) (fs : List (String × String))
    (dflt : String) : String :=
  fs.foldl (fun a p => if p.1 = nm then p.2 else a) dflt

/-- The content the overwrite-mode merge leaves at name `nm` after
chunks `i..i+m-1`: the last write wins, in ascending chunk order and
directory order within a chunk, defaulting to the pre-merge content. -/
def lastVer (dirs : Nat → Option (List (String × String)))
    (nm : String) : Nat → Nat → String → String
  | _, 0, dflt => dflt
  | i, m + 1, dflt =>
    lastVer dirs nm (i + 1) m
      (match dirs i with
       | none => dflt
       | some fs => lastNameVal nm fs dflt)

theorem mergeFile_isSome (ow : Bool) (i : Nat) (nm : String)
    (acc : List (String × String) × List MEv) (p : String × String)
    (h : (destLookup nm acc.1).isSome) :
    (destLookup nm (mergeFile ow i acc p).1).isSome := by
  unfold mergeFile
  split_ifs with h1 h2
  · by_cases hp : p.1 = nm
    · rw [hp, destLookup_destReplace_self]
      cases hd : destLookup nm acc.1
      · rw [hd] at h; simp at h
      · simp
    · rw [destLookup_destReplace_ne nm p.1 p.2 hp]
      exact h
  · exact h
  · rw [destLookup_append]
    cases hd : destLookup nm acc.1
    · rw [hd] at h; simp at h
    · simp

theorem mergeFile_ev_eq (ow : Bool) (i : Nat)
    (acc : List (String × String) × List MEv) (p : String × String) :
    ∃ x, (mergeFile ow i acc p).2 = acc.2 ++ [x] ∧
      (x = MEv.copyFile i p.1 ∨ x = MEv.collision i p.1) := by
  unfold mergeFile
  split_ifs with h1 h2
  · exact ⟨MEv.copyFile i p.1, rfl, Or.inl rfl⟩
  · exact ⟨MEv.collision i p.1, rfl, Or.inr rfl⟩
  · exact ⟨MEv.copyFile i p.1, rfl, Or.inl rfl⟩

theorem mergeFold_ev_mono (ow : Bool) (i : Nat) :
    ∀ (fs : List (String × String))
      (acc : List (String × String) × List MEv) (e : MEv),
    e ∈ acc.2 → e ∈ (fs.foldl (mergeFile ow i) acc).2 := by
  intro fs
  induction fs with
  | nil => intro acc e he; exact he
  | cons q fs ih =>
      intro acc e he
      rw [List.foldl_cons]
      obtain ⟨x, hx, -⟩ := mergeFile_ev_eq ow i acc q
      refine ih (mergeFile ow i acc q) e ?_
      rw [hx]
      exact List.mem_append_left _ he

theorem mergeChunk_ev_mono (ow : Bool)
    (dirs : Nat → Option (List (String × String))) (i : Nat)
    (acc : List (String × String) × List MEv) (e : MEv)
    (he : e ∈ acc.2) : e ∈ (mergeChunk ow dirs i acc).2 := by
  unfold mergeChunk
  cases dirs i
  · exact List.mem_append_left _ he
  · exact mergeFold_ev_mono ow i _ acc e he

theorem mergeLoop_ev_mono (ow : Bool)
    (dirs : Nat → Option (List (String × String))) :
    ∀ (m i : Nat) (acc : List (String × String) × List MEv) (e : MEv),
    e ∈ acc.2 → e ∈ (mergeLoop ow dirs i m acc).2 := by
  intro m
  induction m with
  | zero => intro i acc e he; exact he
  | succ k ih =>
      intro i acc e he
      exact ih (i + 1) (mergeChunk ow dirs i acc) e
        (mergeChunk_ev_mono ow dirs i acc e he)

theorem mergeFold_isSome (ow : Bool) (i : Nat) (nm : String) :
    ∀ (fs : List (String × String))
      (acc : List (String × String) × List MEv),
    (destLookup nm acc.1).isSome →
    (destLookup nm (fs.foldl (mergeFile ow i) acc).1).isSome := by
  intro fs
  induction fs with
  | nil => intro acc h; exact h
  | cons q fs ih =>
      intro acc h
      exact ih (mergeFile ow i acc q) (mergeFile_isSome ow i nm acc q h)

theorem mergeChunk_isSome (ow : Bool)
    (dirs : Nat → Option (List (String × String))) (i : Nat) (nm : String)
    (acc : List (String × String) × List MEv)
    (h : (destLookup nm acc.1).isSome) :
    (destLookup nm (mergeChunk ow dirs i acc).1).isSome := by
  unfold mergeChunk
  cases dirs i
  · exact h
  · exact mergeFold_isSome ow i nm _ acc h

theorem mergeLoop_isSome (ow : Bool)
    (dirs : Nat → Option (List (String × String))) (nm : String) :
    ∀ (m i : Nat) (acc : List (String × String) × List MEv),
    (destLookup nm acc.1).isSome →
    (destLookup nm (mergeLoop ow dirs i m acc).1).isSome := by
  intro m
  induction m with
  | zero => intro i acc h; exact h
  | succ k ih =>
      intro i acc h
      exact ih (i + 1) (mergeChunk ow dirs i acc)
        (mergeChunk_isSome ow dirs i nm acc h)

theorem mergeFold_shape (ow : Bool) (i : Nat) :
    ∀ (fs : List (String × String))
      (acc : List (String × String) × List MEv),
    ∃ t, (fs.foldl (mergeFile ow i) acc).2 = acc.2 ++ t ∧
      ∀ e, e ∈ t →
        (∃ nm, e = MEv.copyFile i nm) ∨ (∃ nm, e = MEv.collision i nm) := by
  intro fs
  induction fs with
  | nil =>
      intro acc
      exact ⟨[], by simp, fun e he => absurd he (by simp)⟩
  | cons q fs ih =>
      intro acc
      obtain ⟨x, hx, hxor⟩ := mergeFile_ev_eq ow i acc q
      obtain ⟨t, ht, hsh⟩ := ih (mergeFile ow i acc q)
      refine ⟨x :: t, ?_, ?_⟩
      · rw [List.foldl_cons, ht, hx]
        simp
      · intro e he
        rcases List.mem_cons.mp he with h1 | h2
        · rcases hxor with hc | hc
          · exact Or.inl ⟨q.1, h1.trans hc⟩
          · exact Or.inr ⟨q.1, h1.trans hc⟩
        · exact hsh e h2

theorem mergeChunk_warn_iff (ow : Bool)
    (dirs : Nat → Option (List (String × String))) (i j : Nat)
    (acc : List (String × String) × List MEv) :
    MEv.warnMissing j ∈ (mergeChunk ow dirs i acc).2
      ↔ (MEv.warnMissing j ∈ acc.2 ∨ (j = i ∧ dirs i = none)) := by
  unfold mergeChunk
  cases hd : dirs i with
  | none => simp [hd]
  | some fs =>
      obtain ⟨t, ht, hsh⟩ := mergeFold_shape ow i fs acc
      rw [ht]
      simp only [List.mem_append, hd]
      constructor
      · rintro (h | h)
        · exact Or.inl h
        · rcases hsh _ h with ⟨nm, he⟩ | ⟨nm, he⟩ <;> simp at he
      · rintro (h | ⟨-, h⟩)
        · exact Or.inl h
        · exact absurd h (by simp)

theorem mergeLoop_warn_iff (ow : Bool)
    (dirs : Nat → Option (List (String × String))) :
    ∀ (m i : Nat) (acc : List (String × String) × List MEv) (j : Nat),
    MEv.warnMissing j ∈ (mergeLoop ow dirs i m acc).2
      ↔ (MEv.warnMissing j ∈ acc.2 ∨ (i ≤ j ∧ j < i + m ∧ dirs j = none)) := by
  intro m
  induction m with
  | zero =>
      intro i acc j
      simp only [mergeLoop]
      constructor
      · exact Or.inl
      · rintro (h | ⟨h1, h2, -⟩)
        · exact h
        · omega
  | succ k ih =>
      intro i acc j
      show MEv.warnMissing j ∈ (mergeLoop ow dirs (i + 1) k
          (mergeChunk ow dirs i acc)).2 ↔ _
      rw [ih (i + 1) (mergeChunk ow dirs i acc) j,
        mergeChunk_warn_iff ow dirs i j acc]
      constructor
      · rintro ((h | ⟨hj, hd⟩) | ⟨h1, h2, h3⟩)
        · exact Or.inl h
        · exact Or.inr ⟨by omega, by omega, hj ▸ hd⟩
        · exact Or.inr ⟨by omega, by omega, h3⟩
      · rintro (h | ⟨h1, h2, h3⟩)
        · exact Or.inl (Or.inl h)
        · by_cases hj : j = i
          · exact Or.inl (Or.inr ⟨hj, hj ▸ h3⟩)
          · exact Or.inr ⟨by omega, by omega, h3⟩

theorem mergeFile_default_lookup (i : Nat) (nm : String)
    (acc : List (String × String) × List MEv) (p : String × String)
    (h : (destLookup nm acc.1).isSome) :
    destLookup nm (mergeFile false i acc p).1 = destLookup nm acc.1 := by
  by_cases h1 : (destLookup p.1 acc.1).isSome
  · have hred : mergeFile false i acc p
        = (acc.1, acc.2 ++ [MEv.collision i p.1]) := by
      unfold mergeFile
      rw [if_pos h1, if_neg (by simp)]
    rw [hred]
  · have hred : mergeFile false i acc p
        = (acc.1 ++ [p], acc.2 ++ [MEv.copyFile i p.1]) := by
      unfold mergeFile
      rw [if_neg h1]
    rw [hred]
    show destLookup nm (acc.1 ++ [p]) = destLookup nm acc.1
    rw [destLookup_append]
    cases hd : destLookup nm acc.1
    · rw [hd] at h; simp at h
    · rfl

theorem mergeFold_default_lookup (i : Nat) (nm : String) :
    ∀ (fs : List (String × String))
      (acc : List (String × String) × List MEv),
    (destLookup nm acc.1).isSome →
    destLookup nm (fs.foldl (mergeFile false i) acc).1
      = destLookup nm acc.1 := by
  intro fs
  induction fs with
  | nil => intro acc h; rfl
  | cons q fs ih =>
      intro acc h
      rw [List.foldl_cons,
        ih (mergeFile false i acc q) (mergeFile_isSome false i nm acc q h),
        mergeFile_default_lookup i nm acc q h]

theorem mergeChunk_default_lookup
    (dirs : Nat → Option (List (String × String))) (i : Nat) (nm : String)
    (acc : List (String × String) × List MEv)
    (h : (destLookup nm acc.1).isSome) :
    destLookup nm (mergeChunk false dirs i acc).1 = destLookup nm acc.1 := by
  unfold mergeChunk
  cases dirs i
  · rfl
  · exact mergeFold_default_lookup i nm _ acc h

theorem mergeLoop_default_lookup
    (dirs : Nat → Option (List (String × String))) (nm : String) :
    ∀ (m i : Nat) (acc : List (String × String) × List MEv),
    (destLookup nm acc.1).isSome →
    destLookup nm (mergeLoop false dirs i m acc).1
      = destLookup nm acc.1 := by
  intro m
  induction m with
  | zero => intro i acc h; rfl
  | succ k ih =>
      intro i acc h
      show destLookup nm (mergeLoop false dirs (i + 1) k
          (mergeChunk false dirs i acc)).1 = _
      rw [ih (i + 1) (mergeChunk false dirs i acc)
          (mergeChunk_isSome false dirs i nm acc h),
        mergeChunk_default_lookup dirs i nm acc h]

theorem mergeFile_ow_lookup (i : Nat) (nm c0 : String)
    (acc : List (String × String) × List MEv) (p : String × String)
    (h : destLookup nm acc.1 = some c0) :
    destLookup nm (mergeFile true i acc p).1
      = some (if p.1 = nm then p.2 else c0) := by
  by_cases h1 : (destLookup p.1 acc.1).isSome
  · have hred : mergeFile true i acc p
        = (destReplace p.1 p.2 acc.1, acc.2 ++ [MEv.copyFile i p.1]) := by
      unfold mergeFile
      rw [if_pos h1, if_pos rfl]
    rw [hred]
    show destLookup nm (destReplace p.1 p.2 acc.1) = _
    by_cases hp : p.1 = nm
    · rw [hp, destLookup_destReplace_self, h, if_pos rfl]
      rfl
    · rw [destLookup_destReplace_ne nm p.1 p.2 hp, h, if_neg hp]
  · have hp : ¬p.1 = nm := by
      intro hq
      rw [hq, h] at h1
      simp at h1
    have hred : mergeFile true i acc p
        = (acc.1 ++ [p], acc.2 ++ [MEv.copyFile i p.1]) := by
      unfold mergeFile
      rw [if_neg h1]
    rw [hred]
    show destLookup nm (acc.1 ++ [p]) = _
    rw [destLookup_append, h, if_neg hp]

theorem mergeFold_ow_lookup (i : Nat) (nm : String) :
    ∀ (fs : List (String × String))
      (acc : List (String × String) × List MEv) (c0 : String),
    destLookup nm acc.1 = some c0 →
    destLookup nm (fs.foldl (mergeFile true i) acc).1
      = some (lastNameVal nm fs c0) := by
  intro fs
  induction fs with
  | nil => intro acc c0 h; exact h
  | cons q fs ih =>
      intro acc c0 h
      rw [List.foldl_cons]
      exact ih (mergeFile true i acc q) (if q.1 = nm then q.2 else c0)
        (mergeFile_ow_lookup i nm c0 acc q h)

theorem mergeChunk_ow_lookup
    (dirs : Nat → Option (List (String × String))) (i : Nat)
    (nm : String) (acc : List (String × String) × List MEv) (c0 : String)
    (h : destLookup nm acc.1 = some c0) :
    destLookup nm (mergeChunk true dirs i acc).1
      = some (match dirs i with
              | none => c0
              | some fs => lastNameVal nm fs c0) := by
  unfold mergeChunk
  cases dirs i
  · exact h
  · exact mergeFold_ow_lookup i nm _ acc c0 h

theorem mergeLoop_ow_lookup
    (dirs : Nat → Option (List (String × String))) (nm : String) :
    ∀ (m i : Nat) (acc : List (String × String) × List MEv) (c0 : String),
    destLookup nm acc.1 = some c0 →
    destLookup nm (mergeLoop true dirs i m acc).1
      = some (lastVer dirs nm i m c0) := by
  intro m
  induction m with
  | zero => intro i acc c0 h; exact h
  | succ k ih =>
      intro i acc c0 h
      show destLookup nm (mergeLoop true dirs (i + 1) k
          (mergeChunk true dirs i acc)).1 = _
      rw [ih (i + 1) (mergeChunk true dirs i acc) _
        (mergeChunk_ow_lookup dirs i nm acc c0 h)]
      rfl

theorem mergeFold_collision (i : Nat) (nm : String) :
    ∀ (fs : List (String × String))
      (acc : List (String × String) × List MEv),
    (destLookup nm acc.1).isSome →
    ∀ cnt, (nm, cnt) ∈ fs →
    MEv.collision i nm ∈ (fs.foldl (mergeFile false i) acc).2 := by
  intro fs
  induction fs with
  | nil =>
      intro acc _ cnt hmem
      exact absurd hmem (by simp)
  | cons q fs ih =>
      intro acc h cnt hmem
      rw [List.foldl_cons]
      rcases List.mem_cons.mp hmem with h1 | h2
      · refine mergeFold_ev_mono false i fs (mergeFile false i acc q) _ ?_
        have hq1 : q.1 = nm := by rw [← h1]
        have hcol : (mergeFile false i acc q).2
            = acc.2 ++ [MEv.collision i nm] := by
          unfold mergeFile
          rw [if_pos (by rw [hq1]; exact h), if_neg (by simp), hq1]
        rw [hcol]
        exact List.mem_append_right _ (by simp)
      · exact ih (mergeFile false i acc q)
          (mergeFile_isSome false i nm acc q h) cnt h2

theorem mergeLoop_collision
    (dirs : Nat → Option (List (String × String))) (nm : String) :
    ∀ (m i : Nat) (acc : List (String × String) × List MEv),
    (destLookup nm acc.1).isSome →
    ∀ j fs cnt, i ≤ j → j < i + m → dirs j = some fs → (nm, cnt) ∈ fs →
    MEv.collision j nm ∈ (mergeLoop false dirs i m acc).2 := by
  intro m
  induction m with
  | zero =>
      intro i acc _ j fs cnt h1 h2
      omega
  | succ k ih =>
      intro i acc h j fs cnt h1 h2 hd hmem
      show MEv.collision j nm ∈ (mergeLoop false dirs (i + 1) k
          (mergeChunk false dirs i acc)).2
      by_cases hj : j = i
      · subst hj
        refine mergeLoop_ev_mono false dirs k (j + 1) _ _ ?_
        show MEv.collision j nm ∈ (mergeChunk false dirs j acc).2
        unfold mergeChunk
        rw [hd]
        exact mergeFold_collision j nm fs acc h cnt hmem
      · exact ih (i + 1) (mergeChunk false dirs i acc)
          (mergeChunk_isSome false dirs i nm acc h)
          j fs cnt (by omega) (by omega) hd hmem

theorem mergeFile_self_isSome (ow : Bool) (i : Nat)
    (acc : List (String × String) × List MEv) (p : String × String) :
    (destLookup p.1 (mergeFile ow i acc p).1).isSome := by
  unfold mergeFile
  split_ifs with h1 h2
  · rw [destLookup_destReplace_self]
    cases hd : destLookup p.1 acc.1
    · rw [hd] at h1; simp at h1
    · simp
  · exact h1
  · rw [destLookup_append]
    cases hd : destLookup p.1 acc.1
    · simp [destLookup]
    · simp

theorem mergeFile_ev_self (ow : Bool) (i : Nat)
    (acc : List (String × String) × List MEv) (p : String × String) :
    MEv.copyFile i p.1 ∈ (mergeFile ow i acc p).2 ∨
    MEv.collision i p.1 ∈ (mergeFile ow i acc p).2 := by
  unfold mergeFile
  split_ifs with h1 h2
  · exact Or.inl (List.mem_append_right _ (by simp))
  · exact Or.inr (List.mem_append_right _ (by simp))
  · exact Or.inl (List.mem_append_right _ (by simp))

theorem mergeFold_process (ow : Bool) (i : Nat) :
    ∀ (fs : List (String × String))
      (acc : List (String × String) × List MEv) (p : String × String),
    p ∈ fs →
    ((MEv.copyFile i p.1 ∈ (fs.foldl (mergeFile ow i) acc).2 ∨
      MEv.collision i p.1 ∈ (fs.foldl (mergeFile ow i) acc).2) ∧
     (destLookup p.1 (fs.foldl (mergeFile ow i) acc).1).isSome) := by
  intro fs
  induction fs with
  | nil =>
      intro acc p hmem
      exact absurd hmem (by simp)
  | cons q fs ih =>
      intro acc p hmem
      rw [List.foldl_cons]
      rcases List.mem_cons.mp hmem with h1 | h2
      · subst h1
        constructor
        · rcases mergeFile_ev_self ow i acc p with h | h
          · exact Or.inl (mergeFold_ev_mono ow i fs _ _ h)
          · exact Or.inr (mergeFold_ev_mono ow i fs _ _ h)
        · exact mergeFold_isSome ow i p.1 fs _
            (mergeFile_self_isSome ow i acc p)
      · exact ih (mergeFile ow i acc q) p h2

theorem mergeLoop_process (ow : Bool)
    (dirs : Nat → Option (List (String × String))) :
    ∀ (m i : Nat) (acc : List (String × String) × List MEv)
      (j : Nat) (fs : List (String × String)) (p : String × String),
    i ≤ j → j < i + m → dirs j = some fs → p ∈ fs →
    ((MEv.copyFile j p.1 ∈ (mergeLoop ow dirs i m acc).2 ∨
      MEv.collision j p.1 ∈ (mergeLoop ow dirs i m acc).2) ∧
     (destLookup p.1 (mergeLoop ow dirs i m acc).1).isSome) := by
  intro m
  induction m with
  | zero =>
      intro i acc j fs p h1 h2
      omega
  | succ k ih =>
      intro i acc j fs p h1 h2 hd hmem
      show (_ ∈ (mergeLoop ow dirs (i + 1) k (mergeChunk ow dirs i acc)).2 ∨
        _ ∈ (mergeLoop ow dirs (i + 1) k (mergeChunk ow dirs i acc)).2) ∧ _
      by_cases hj : j = i
      · subst hj
        have hchunk : mergeChunk ow dirs j acc = fs.foldl (mergeFile ow j) acc := by
          unfold mergeChunk
          rw [hd]
        have hpr := mergeFold_process ow j fs acc p hmem
        constructor
        · rcases hpr.1 with h | h
          · exact Or.inl (mergeLoop_ev_mono ow dirs k (j + 1) _ _
              (by rw [hchunk]; exact h))
          · exact Or.inr (mergeLoop_ev_mono ow dirs k (j + 1) _ _
              (by rw [hchunk]; exact h))
        · refine mergeLoop_isSome ow dirs p.1 k (j + 1) _ ?_
          rw [hchunk]
          exact hpr.2
      · exact ih (i + 1) (mergeChunk ow dirs i acc) j fs p
          (by omega) (by omega) hd hmem

/-- C7: during merge, for a file name already present in the
destination: under the default policy the destination file keeps its
content and a collision is reported for every expected chunk that offers
a file of the same name; with the overwrite flag the destination file is
replaced by the chunk's version (last write wins over chunks in
ascending index order, then directory order). -/
theorem merge_collision_policy (n : Nat)
    (dirs : Nat → Option (List (String × String)))
    (dest0 : List (String × String)) (nm c0 : String)
    (h0 : destLookup nm dest0 = some c0) :
    destLookup nm (mergeRun n false dirs dest0).dest = some c0 ∧
    (∀ j fs cnt, j < n → dirs j = some fs → (nm, cnt) ∈ fs →
      MEv.collision j nm ∈ (mergeRun n false dirs dest0).events) ∧
    destLookup nm (mergeRun n true dirs dest0).dest
      = some (lastVer dirs nm 0 n c0) := by
  have hs : (destLookup nm (dest0, ([] : List MEv)).1).isSome := by
    show (destLookup nm dest0).isSome
    rw [h0]
    rfl
  refine ⟨?_, ?_, ?_⟩
  · show destLookup nm (mergeLoop false dirs 0 n (dest0, [])).1 = some c0
    exact (mergeLoop_default_lookup dirs nm n 0 (dest0, []) hs).trans h0
  · intro j fs cnt hj hd hmem
    show MEv.collision j nm ∈ (mergeLoop false dirs 0 n (dest0, [])).2
    exact mergeLoop_collision dirs nm n 0 (dest0, []) hs j fs cnt
      (Nat.zero_le j) (by omega) hd hmem
  · show destLookup nm (mergeLoop true dirs 0 n (dest0, [])).1 = _
    exact mergeLoop_ow_lookup dirs nm n 0 (dest0, []) c0 h0

/-- One chunk output directory, for chunk 0 only, holding one file
`song` with content `new`. -/
def dOne : Nat → Option (List (String × String)) :=
  fun j => if j = 0 then some [("song", "new")] else none

theorem merge_collision_policy_witness :
    destLookup "song" [("song", "old")] = some "old" ∧
    (destLookup "song" (mergeRun 1 false dOne [("song", "old")]).dest
        = some "old" ∧
     (∀ j fs cnt, j < 1 → dOne j = some fs → ("song", cnt) ∈ fs →
       MEv.collision j "song" ∈
         (mergeRun 1 false dOne [("song", "old")]).events) ∧
     destLookup "song" (mergeRun 1 true dOne [("song", "old")]).dest
        = some (lastVer dOne "song" 0 1 "old")) :=
  ⟨by decide,
    merge_collision_policy 1 dOne [("song", "old")] "song" "old" (by decide)⟩

/-- C8: the merge always exits 0; for an expected chunk index a warning
is emitted exactly when its directory is missing, warnings only name
missing expected chunks, and every file of an existing expected chunk
directory is processed — copied into the destination or reported as a
collision — its name being present in the destination afterwards. -/
theorem merge_missing_tolerant (n : Nat) (ow : Bool)
    (dirs : Nat → Option (List (String × String)))
    (dest0 : List (String × String)) (i : Nat) (hi : i < n) :
    (mergeRun n ow dirs dest0).exitCode = 0 ∧
    (MEv.warnMissing i ∈ (mergeRun n ow dirs dest0).events ↔ dirs i = none) ∧
    (∀ j, MEv.warnMissing j ∈ (mergeRun n ow dirs dest0).events →
      (j < n ∧ dirs j = none)) ∧
    (∀ fs, dirs i = some fs → ∀ p, p ∈ fs →
      ((MEv.copyFile i p.1 ∈ (mergeRun n ow dirs dest0).events ∨
        MEv.collision i p.1 ∈ (mergeRun n ow dirs dest0).events) ∧
       (destLookup p.1 (mergeRun n ow dirs dest0).dest).isSome)) := by
  refine ⟨rfl, ?_, ?_, ?_⟩
  · show MEv.warnMissing i ∈ (mergeLoop ow dirs 0 n (dest0, [])).2 ↔ _
    rw [mergeLoop_warn_iff ow dirs n 0 (dest0, []) i]
    constructor
    · rintro (h | ⟨-, -, h⟩)
      · exact absurd h (by simp)
      · exact h
    · intro h
      exact Or.inr ⟨Nat.zero_le i, by omega, h⟩
  · intro j hj
    have hj' : MEv.warnMissing j ∈ (mergeLoop ow dirs 0 n (dest0, [])).2 := hj
    rw [mergeLoop_warn_iff ow dirs n 0 (dest0, []) j] at hj'
    rcases hj' with h | ⟨-, h2, h3⟩
    · exact absurd h (by simp)
    · exact ⟨by omega, h3⟩
  · intro fs hd p hp
    exact mergeLoop_process ow dirs n 0 (dest0, []) i fs p
      (Nat.zero_le i) (by omega) hd hp

theorem merge_missing_tolerant_witness :
    0 < 2 ∧
    ((mergeRun 2 false dOne []).exitCode = 0 ∧
     (MEv.warnMissing 0 ∈ (mergeRun 2 false dOne []).events ↔
        dOne 0 = none) ∧
     (∀ j, MEv.warnMissing j ∈ (mergeRun 2 false dOne []).events →
       (j < 2 ∧ dOne j = none)) ∧
     (∀ fs, dOne 0 = some fs → ∀ p, p ∈ fs →
       ((MEv.copyFile 0 p.1 ∈ (mergeRun 2 false dOne []).events ∨
         MEv.collision 0 p.1 ∈ (mergeRun 2 false dOne []).events) ∧
        (destLookup p.1 (mergeRun 2 false dOne []).dest).isSome))) :=
  ⟨by decide, merge_missing_tolerant 2 false dOne [] 0 (by decide)⟩

end Clamp3
